import Mathlib

-- Shallow embedding of the request-resolution pipeline of
-- src/src/main.rs (a minimal HTTP/1.1 static-file server).
-- Strings are modelled through their character lists; Rust's
-- `str::split(char)` and `[String]::join` are embedded as `splitChar`
-- and `joinChar`.  Functions whose Rust counterpart can panic are
-- embedded as `Option`-valued functions, `none` marking the panic.
-- The filesystem consulted by `process_request` is abstracted as a
-- structure of query functions (`FS`), since the repository performs
-- only read-only existence checks, reads and directory enumeration.

set_option maxRecDepth 4000

namespace WebServer

-- Model of Rust `str::split(sep)` (single-character pattern): the list
-- of (possibly empty) chunks between occurrences of `sep`.
def splitChar (sep : Char) : List Char → List (List Char)
  | [] => [[]]
  | c :: cs =>
    if c = sep then [] :: splitChar sep cs
    else
      match splitChar sep cs with
      | r :: rs => (c :: r) :: rs
      | [] => [[c]]

-- Model of Rust `[String]::join(sep)` for a single-character separator.
def joinChar (sep : Char) : List (List Char) → List Char
  | [] => []
  | [s] => s
  | s :: ss => s ++ sep :: joinChar sep ss

-- One step of the segment loop in `normalize_path` (src/main.rs:126-135):
-- empty and "." segments are skipped, ".." pops the last accepted
-- segment (`Vec::pop` is a no-op on an empty vector), anything else is
-- pushed.
def normStep (acc : List (List Char)) (part : List Char) : List (List Char) :=
  if part = [] ∨ part = ['.'] then acc
  else if part = ['.', '.'] then acc.dropLast
  else acc ++ [part]

-- The accepted-segment vector `res` of `normalize_path` after the loop.
def normalizeSegs (path : String) : List (List Char) :=
  (splitChar '/' path.data).foldl normStep []

-- `normalize_path` (src/main.rs:123-138): split on '/', process the
-- segments, rejoin with '/'.
def normalize_path (path : String) : String :=
  ⟨joinChar '/' (normalizeSegs path)⟩

-- The characters passed through unchanged by `url_encode`
-- (src/main.rs:80): ASCII letters, digits, and `.`, `~`, `_`, `-`.
def safeChar (c : Char) : Bool :=
  decide (('a' ≤ c ∧ c ≤ 'z') ∨ ('A' ≤ c ∧ c ≤ 'Z') ∨ ('0' ≤ c ∧ c ≤ '9')
    ∨ c = '.' ∨ c = '~' ∨ c = '_' ∨ c = '-')

-- Uppercase hexadecimal digit, as produced by Rust `format!("{:02X}")`.
-- 48 is the code of '0' and 65 the code of 'A'.
def hexDigitUpper (n : Nat) : Char :=
  if n < 10 then Char.ofNat (48 + n) else Char.ofNat (65 + (n - 10))

-- `url_encode` (src/main.rs:75-87) on the character list: safe
-- characters pass through, other ASCII characters become `%XX`
-- (uppercase hex), and a non-ASCII character hits `unimplemented!`,
-- modelled as `none`.
def url_encode_chars : List Char → Option (List Char)
  | [] => some []
  | c :: cs =>
    if safeChar c then (url_encode_chars cs).map (fun r => c :: r)
    else if c.toNat ≤ 127 then
      (url_encode_chars cs).map (fun r =>
        '%' :: hexDigitUpper (c.toNat / 16) :: hexDigitUpper (c.toNat % 16) :: r)
    else none

def url_encode (s : String) : Option String :=
  (url_encode_chars s.data).map String.mk

-- Value of a hexadecimal digit, as accepted by Rust
-- `u8::from_str_radix(_, 16)` (48 = '0', 97 = 'a', 65 = 'A').
def hexVal (c : Char) : Option Nat :=
  if '0' ≤ c ∧ c ≤ '9' then some (c.toNat - 48)
  else if 'a' ≤ c ∧ c ≤ 'f' then some (c.toNat - 97 + 10)
  else if 'A' ≤ c ∧ c ≤ 'F' then some (c.toNat - 65 + 10)
  else none

-- `u8::from_str_radix` on the two-character string `{c1}{c2}` with
-- radix 16; a leading '+' sign is accepted by Rust.  A parse failure
-- makes `url_decode` panic via `unwrap`, modelled as `none`.
def parseHexByte (c1 c2 : Char) : Option Nat :=
  if c1 = '+' then hexVal c2
  else
    match hexVal c1, hexVal c2 with
    | some a, some b => some (16 * a + b)
    | _, _ => none

-- The scan loop of `url_decode` (src/main.rs:103-118): '%' must be
-- followed by two characters forming a hex byte, which is pushed as the
-- character with that code; other characters are copied.  Running out
-- of characters after '%' panics (`none`).
def url_decode_chars : List Char → Option (List Char)
  | [] => some []
  | c :: cs =>
    if c = '%' then
      match cs with
      | c1 :: c2 :: rest =>
        match parseHexByte c1 c2 with
        | some b => (url_decode_chars rest).map (fun r => Char.ofNat b :: r)
        | none => none
      | _ => none
    else (url_decode_chars cs).map (fun r => c :: r)

-- `url_decode` (src/main.rs:98-121): first every '+' is replaced by a
-- space (`input.replace("+", " ")`), then the scan runs.
def url_decode (s : String) : Option String :=
  (url_decode_chars (s.data.map (fun c => if c = '+' then ' ' else c))).map String.mk

-- The apostrophe character (code 39).
def apos : Char := Char.ofNat 39

-- Model of Rust `str::replace(char, rep)`: every occurrence of `c` is
-- replaced by `rep`.
def replaceChar (c : Char) (rep : List Char) (l : List Char) : List Char :=
  (l.map (fun x => if x = c then rep else [x])).flatten

-- `html_encode` (src/main.rs:89-96) on the character list: the five
-- chained `replace` calls, '&' first.
def encodeList (l : List Char) : List Char :=
  replaceChar apos ['&', 'a', 'p', 'o', 's', ';']
    (replaceChar '"' ['&', 'q', 'u', 'o', 't', ';']
      (replaceChar '>' ['&', 'g', 't', ';']
        (replaceChar '<' ['&', 'l', 't', ';']
          (replaceChar '&' ['&', 'a', 'm', 'p', ';'] l))))

def html_encode (input : String) : String :=
  ⟨encodeList input.data⟩

-- The image of one input character under the whole `html_encode`
-- chain (used to reason about `encodeList`).
def encChar (x : Char) : List Char :=
  if x = '&' then ['&', 'a', 'm', 'p', ';']
  else if x = '<' then ['&', 'l', 't', ';']
  else if x = '>' then ['&', 'g', 't', ';']
  else if x = '"' then ['&', 'q', 'u', 'o', 't', ';']
  else if x = apos then ['&', 'a', 'p', 'o', 's', ';']
  else [x]

-- The five entities `html_encode` can emit.
def entities : List (List Char) :=
  [['&', 'a', 'm', 'p', ';'], ['&', 'l', 't', ';'], ['&', 'g', 't', ';'],
    ['&', 'q', 'u', 'o', 't', ';'], ['&', 'a', 'p', 'o', 's', ';']]

-- `l` begins with one of the five entities.
def startsWithEntity (l : List Char) : Prop :=
  ∃ e t, e ∈ entities ∧ l = e ++ t

def DEFAULT_MIME_TYPE : String := "application/octet-stream"

-- Model of Rust `Path::file_name` on Unix: the last path component
-- after dropping empty and "." components; `none` when there is no
-- component or the last one is "..".
def file_name (p : String) : Option String :=
  match ((splitChar '/' p.data).filter (fun s => decide ¬(s = [] ∨ s = ['.']))).getLast? with
  | some last => if last = ['.', '.'] then none else some ⟨last⟩
  | none => none

-- The extension table of `mime_type` (src/main.rs:213-222).
def mime_from_ext (ext : String) : String :=
  if ext = "html" ∨ ext = "htm" then "text/html"
  else if ext = "jpeg" ∨ ext = "jpg" then "image/jpeg"
  else if ext = "png" then "image/png"
  else if ext = "txt" then "text/plain"
  else if ext = "css" then "text/css"
  else if ext = "js" then "text/javascript"
  else if ext = "json" then "application/json"
  else DEFAULT_MIME_TYPE

-- `mime_type` (src/main.rs:199-223): take the file name of the path
-- (panicking, i.e. `none`, when `Path::file_name` gives nothing), split
-- it on '.', look the last chunk up in the table.  The `let ... else`
-- branch returning the default type (for `last()` giving nothing) is
-- kept even though `split` never yields an empty list.
def mime_type (file_path : String) : Option String :=
  (file_name file_path).map (fun filename =>
    match (splitChar '.' filename.data).getLast? with
    | none => DEFAULT_MIME_TYPE
    | some ext => mime_from_ext ⟨ext⟩)

-- Spec-side definition (compared with the code in the C9 theorem): the
-- spec says the resolver takes "the substring after the last `.` in the
-- filename"; `afterLastSep sep l` is the substring of `l` after the
-- last occurrence of `sep` (all of `l` when `sep` does not occur).
def afterLastSep (sep : Char) : List Char → List Char
  | [] => []
  | c :: cs =>
    if sep ∈ cs then afterLastSep sep cs
    else if c = sep then cs
    else c :: afterLastSep sep cs

-- One directory entry as returned by `read_dir`: its file name and
-- whether `file_type()` reports a directory.
structure DirEntry where
  name : String
  is_dir : Bool
deriving DecidableEq

-- Read-only filesystem interface consumed by the pipeline: `is_file` /
-- `is_dir` are `Path::is_file` / `Path::is_dir`, `read_file` the bytes
-- streamed by `send_file`, `read_dir` the directory enumeration.
structure FS where
  is_file : String → Bool
  is_dir : String → Bool
  read_file : String → String
  read_dir : String → List DirEntry

-- One `<li>` line of the directory listing (src/main.rs:173-191):
-- link target is the percent-encoded entry name (whose failure on a
-- non-ASCII name aborts the listing), displayed text is the
-- HTML-escaped marker-prefixed name.
def entry_line (e : DirEntry) : Option String :=
  (url_encode e.name).map (fun enc =>
    "  <li><a href=\"" ++ enc ++ "\">" ++
      html_encode (if e.is_dir then "📁 " ++ e.name ++ "/" else "📄 " ++ e.name) ++
      "</a></li>\n")

-- `list_directory` (src/main.rs:140-197): the fixed HTML document with
-- the directory name interpolated, the constant ".." entry first, then
-- one line per `read_dir` entry.  Each `writeln!` contributes its text
-- plus a newline.
def list_directory (fs : FS) (directory : String) : Option String :=
  ((fs.read_dir directory).mapM entry_line).map (fun lines =>
    "<!DOCTYPE html>\n<html lang=\"en\">\n<head>\n  <meta charset=\"utf-8\">\n  <title>Index of "
      ++ directory
      ++ "</title>\n  <style>\n  body \x7b\n    background-color: Canvas;\n    color: CanvasText;\n    color-scheme: light dark;\n  \x7d\n  a, a:visited, a:active \x7b\n    text-decoration: none;\n  \x7d\n  </style>\n</head>\n"
      ++ "<h1>Directory Listing</h1>\n"
      ++ "<h2>Directory: " ++ directory ++ "</h2>\n"
      ++ "<hr>\n"
      ++ "<ul>\n"
      ++ "  <li><a href=\"..\">..</a></li>\n"
      ++ String.join lines
      ++ "</ul>\n" ++ "<hr>\n" ++ "</html>\n")

-- Rust `str::split_once(sep)`: the parts before and after the first
-- occurrence of `sep`, when it occurs.
def split_once (sep : Char) (l : List Char) : Option (List Char × List Char) :=
  if sep ∈ l then some (l.takeWhile (fun x => x ≠ sep), (l.dropWhile (fun x => x ≠ sep)).tail)
  else none

-- The parsed request (struct `ReqInfo`, src/main.rs:21-26).  The
-- header map is kept as the insertion-ordered list of (key, value)
-- pairs fed to `HashMap::insert`; no claim depends on the overwrite
-- behaviour of duplicate keys.
structure ReqInfo where
  method : String
  path : String
  version : String
  headers : List (String × String)
deriving DecidableEq

-- The header loop of `parse_request` (src/main.rs:61-70): each line is
-- split at the first ':' into key and value; a line without ':' ends
-- the headers.
def parse_headers : List String → List (String × String)
  | [] => []
  | line :: rest =>
    match split_once ':' line.data with
    | some (k, v) => (⟨k⟩, ⟨v⟩) :: parse_headers rest
    | none => []

-- `parse_request` (src/main.rs:28-73) on the list of received lines:
-- no line at all panics ("Failed to get status line"); the first line
-- is split on ' ' and the first three chunks become method, path and
-- version (fewer than three panics, further chunks are never read);
-- the remaining lines are parsed as headers.
def parse_request : List String → Option ReqInfo
  | [] => none
  | status_line :: rest =>
    match splitChar ' ' status_line.data with
    | m :: p :: v :: _ => some ⟨⟨m⟩, ⟨p⟩, ⟨v⟩, parse_headers rest⟩
    | _ => none

-- Rust `str::starts_with(char)` / `str::ends_with(char)`.
def starts_with_char (s : String) (c : Char) : Bool :=
  s.data.head? == some c

def ends_with_char (s : String) (c : Char) : Bool :=
  s.data.getLast? == some c

-- The resolution outcome (the spec's `Resource`); `process_request`
-- inlines this classification, factored out here so the claims about
-- it can be stated.
inductive Resource where
  | StaticFile : String → Resource
  | Redirect : String → Resource
  | Directory : String → Resource
  | NotFound : Resource
deriving DecidableEq

-- The index-file loop of `process_request` (src/main.rs:255-267): try
-- the path itself, then `path/index.html`, then `path/index.htm`; the
-- first that is a regular file wins.
def find_file (fs : FS) (path : String) : Option String :=
  [path, path ++ "/index.html", path ++ "/index.htm"].find? fs.is_file

-- The classification part of `process_request` (src/main.rs:255-292):
-- a found file is served; otherwise a directory yields a listing when
-- the original request path ends in '/' and a redirect to
-- `request_path ++ "/"` when it does not; otherwise nothing was found.
def resolve (fs : FS) (request_path path : String) : Resource :=
  match find_file fs path with
  | some file => Resource.StaticFile file
  | none =>
    if fs.is_dir path then
      if ends_with_char request_path '/' then Resource.Directory path
      else Resource.Redirect (request_path ++ "/")
    else Resource.NotFound

-- The bytes written for each outcome (src/main.rs:271-292).  The 404
-- branch writes only the status line.  A panic while producing the
-- response (a `mime_type` panic or a listing failure) is collapsed to
-- `none`.
def respond (fs : FS) : Resource → Option String
  | Resource.StaticFile file =>
    (mime_type file).map (fun m =>
      "HTTP/1.1 200 OK\r\n" ++ "Content-Type: " ++ m ++ "\r\n" ++ "\r\n" ++ fs.read_file file)
  | Resource.Redirect location =>
    some ("HTTP/1.1 301 Moved Permanently\r\n" ++ "Location: " ++ location ++ "\r\n" ++ "\r\n")
  | Resource.Directory path =>
    (list_directory fs path).map (fun body =>
      "HTTP/1.1 200 OK\r\n" ++ "Content-Type: text/html; charset=utf-8\r\n" ++ "\r\n" ++ body)
  | Resource.NotFound => some "HTTP/1.1 404 Not Found\r\n"

-- Query-string stripping (src/main.rs:242-245): `split_once('?')`
-- keeps the part before the first '?', or the whole path.
def strip_query (p : String) : String :=
  ⟨p.data.takeWhile (fun c => c ≠ '?')⟩

-- The path served for a request target: strip the query string, decode
-- the percent-encoding (a malformed encoding panics), normalize, and
-- substitute "." for an empty result (src/main.rs:242-252).
def effective_path (target : String) : Option String :=
  (url_decode (strip_query target)).map (fun d =>
    let p := normalize_path d
    if p = "" then "." else p)

-- `process_request` (src/main.rs:225-295) after parsing: the version
-- must be HTTP/1.1, the method GET and the target absolute (each
-- violation panics), then the effective path is classified and the
-- response bytes are produced.
def process_request (fs : FS) (req : ReqInfo) : Option String :=
  if req.version = "HTTP/1.1" then
    if req.method = "GET" then
      if starts_with_char req.path '/' then
        match effective_path req.path with
        | some path => respond fs (resolve fs req.path path)
        | none => none
      else none
    else none
  else none

-- A normalized segment as accepted by `normStep`: non-empty and
-- neither "." nor "..".
def plainSeg (s : List Char) : Prop :=
  s ≠ [] ∧ s ≠ ['.'] ∧ s ≠ ['.', '.']

-- Concrete filesystems used to instantiate the theorems.
def fsEmpty : FS := ⟨fun _ => false, fun _ => false, fun _ => "", fun _ => []⟩

def fsFileA : FS := ⟨fun s => s == "a", fun _ => false, fun _ => "", fun _ => []⟩

def fsIdxHtml : FS :=
  ⟨fun s => s == "sub/index.html", fun s => s == "sub", fun _ => "BODY", fun _ => []⟩

def fsIdxHtm : FS := ⟨fun s => s == "sub/index.htm", fun _ => false, fun _ => "", fun _ => []⟩

def fsDirOnly : FS := ⟨fun _ => false, fun s => s == "sub", fun _ => "", fun _ => []⟩

-- ### Lemmas about `splitChar` and `joinChar`

theorem splitChar_cons_sep (sep : Char) (cs : List Char) :
    splitChar sep (sep :: cs) = [] :: splitChar sep cs := by
  simp [splitChar]

theorem splitChar_ne_nil (sep : Char) (l : List Char) : splitChar sep l ≠ [] := by
  induction l with
  | nil => simp [splitChar]
  | cons c cs ih =>
    by_cases h : c = sep
    · subst h
      simp [splitChar]
    · simp only [splitChar, if_neg h]
      rcases hs : splitChar sep cs with _ | ⟨r, rs⟩
      · exact absurd hs ih
      · simp

theorem splitChar_cons_ne (sep c : Char) (cs : List Char) (h : c ≠ sep)
    (r : List Char) (rs : List (List Char)) (hs : splitChar sep cs = r :: rs) :
    splitChar sep (c :: cs) = (c :: r) :: rs := by
  simp only [splitChar, if_neg h, hs]

theorem not_mem_of_mem_splitChar (sep : Char) {l s : List Char}
    (h : s ∈ splitChar sep l) : sep ∉ s := by
  induction l generalizing s with
  | nil =>
    simp only [splitChar, List.mem_singleton] at h
    subst h
    simp
  | cons c cs ih =>
    by_cases hc : c = sep
    · subst hc
      rw [splitChar_cons_sep] at h
      rcases List.mem_cons.mp h with h | h
      · subst h; simp
      · exact ih h
    · rcases hs : splitChar sep cs with _ | ⟨r, rs⟩
      · exact absurd hs (splitChar_ne_nil sep cs)
      · rw [splitChar_cons_ne sep c cs hc r rs hs] at h
        rcases List.mem_cons.mp h with h | h
        · subst h
          intro hm
          rcases List.mem_cons.mp hm with hm | hm
          · exact hc hm.symm
          · exact ih (hs ▸ List.mem_cons_self r rs) hm
        · exact ih (hs ▸ List.mem_cons_of_mem r h)

theorem splitChar_no_sep (sep : Char) {l : List Char} (h : sep ∉ l) :
    splitChar sep l = [l] := by
  induction l with
  | nil => rfl
  | cons c cs ih =>
    have hc : c ≠ sep := by
      intro e
      subst e
      exact h (List.mem_cons_self c cs)
    have hcs : sep ∉ cs := fun m => h (List.mem_cons_of_mem _ m)
    exact splitChar_cons_ne sep c cs hc cs [] (ih hcs)

theorem splitChar_append (sep : Char) {s : List Char} (h : sep ∉ s) (t : List Char) :
    splitChar sep (s ++ sep :: t) = s :: splitChar sep t := by
  induction s with
  | nil => simpa using splitChar_cons_sep sep t
  | cons c cs ih =>
    have hc : c ≠ sep := by
      intro e
      subst e
      exact h (List.mem_cons_self c cs)
    have hcs : sep ∉ cs := fun m => h (List.mem_cons_of_mem _ m)
    rw [List.cons_append]
    exact splitChar_cons_ne sep c (cs ++ sep :: t) hc cs (splitChar sep t) (ih hcs)

theorem splitChar_joinChar (sep : Char) :
    ∀ ss : List (List Char), (∀ s ∈ ss, sep ∉ s) → ss ≠ [] →
      splitChar sep (joinChar sep ss) = ss := by
  intro ss
  induction ss with
  | nil => intro _ h; exact absurd rfl h
  | cons s ss ih =>
    intro hmem _
    cases ss with
    | nil =>
      show splitChar sep (joinChar sep [s]) = [s]
      simp only [joinChar]
      exact splitChar_no_sep sep (hmem s (List.mem_cons_self s []))
    | cons t rest =>
      have hj : joinChar sep (s :: t :: rest) = s ++ sep :: joinChar sep (t :: rest) := rfl
      rw [hj, splitChar_append sep (hmem s (List.mem_cons_self s _)),
        ih (fun x hx => hmem x (List.mem_cons_of_mem s hx)) (by simp)]

-- ### Lemmas about the `normalize_path` segment loop

theorem mem_foldl_normStep :
    ∀ (parts : List (List Char)) (acc : List (List Char)) (x : List Char),
      x ∈ parts.foldl normStep acc → x ∈ acc ∨ x ∈ parts := by
  intro parts
  induction parts with
  | nil => intro acc x h; exact Or.inl h
  | cons p ps ih =>
    intro acc x h
    rcases ih (normStep acc p) x h with h | h
    · by_cases h1 : p = [] ∨ p = ['.']
      · rw [normStep, if_pos h1] at h
        exact Or.inl h
      · by_cases h2 : p = ['.', '.']
        · rw [normStep, if_neg h1, if_pos h2] at h
          exact Or.inl (List.dropLast_subset acc h)
        · rw [normStep, if_neg h1, if_neg h2] at h
          rcases List.mem_append.mp h with h | h
          · exact Or.inl h
          · exact Or.inr (List.mem_cons.mpr (Or.inl (List.mem_singleton.mp h)))
    · exact Or.inr (List.mem_cons_of_mem p h)

theorem foldl_normStep_plain :
    ∀ (parts acc : List (List Char)), (∀ x ∈ acc, plainSeg x) →
      ∀ x ∈ parts.foldl normStep acc, plainSeg x := by
  intro parts
  induction parts with
  | nil => intro acc hacc x h; exact hacc x h
  | cons p ps ih =>
    intro acc hacc x h
    refine ih (normStep acc p) ?_ x h
    intro y hy
    by_cases h1 : p = [] ∨ p = ['.']
    · rw [normStep, if_pos h1] at hy
      exact hacc y hy
    · by_cases h2 : p = ['.', '.']
      · rw [normStep, if_neg h1, if_pos h2] at hy
        exact hacc y (List.dropLast_subset acc hy)
      · rw [normStep, if_neg h1, if_neg h2] at hy
        rcases List.mem_append.mp hy with hy | hy
        · exact hacc y hy
        · have hyp : y = p := List.mem_singleton.mp hy
          subst hyp
          exact ⟨fun e => h1 (Or.inl e), fun e => h1 (Or.inr e), h2⟩

theorem foldl_normStep_plain_append :
    ∀ (parts : List (List Char)), (∀ x ∈ parts, plainSeg x) →
      ∀ acc, parts.foldl normStep acc = acc ++ parts := by
  intro parts
  induction parts with
  | nil => intro _ acc; simp
  | cons p ps ih =>
    intro hp acc
    have hpp : plainSeg p := hp p (List.mem_cons_self p ps)
    have hstep : normStep acc p = acc ++ [p] := by
      rw [normStep, if_neg (fun h => h.elim hpp.1 hpp.2.1), if_neg hpp.2.2]
    show (p :: ps).foldl normStep acc = acc ++ p :: ps
    rw [List.foldl_cons, hstep, ih (fun x hx => hp x (List.mem_cons_of_mem p hx))]
    simp

-- ### Claim theorems

/-- C1: for every input string, every segment of the path produced by
`normalize_path` is non-empty and differs from "." and ".."; a ".."
with no previously accepted segment is a no-op (`normStep [] ".." = []`),
and a leading "../" is absorbed without effect, so the normalized path
never references anything above the configured root. -/
theorem c1_normalize_invariant (p : String) :
    (∀ s ∈ normalizeSegs p, s ≠ [] ∧ s ≠ ['.'] ∧ s ≠ ['.', '.']) ∧
    normStep [] ['.', '.'] = [] ∧
    normalize_path ("../" ++ p) = normalize_path p := by
  refine ⟨fun s hs => foldl_normStep_plain _ [] (by simp) s hs, rfl, ?_⟩
  obtain ⟨l⟩ := p
  have hd : ("../" ++ (⟨l⟩ : String)).data = '.' :: '.' :: '/' :: l := rfl
  show (⟨joinChar '/' (normalizeSegs _)⟩ : String) = ⟨joinChar '/' (normalizeSegs _)⟩
  unfold normalizeSegs
  rw [hd]
  have h1 : splitChar '/' ('.' :: '.' :: '/' :: l) = ['.', '.'] :: splitChar '/' l := by
    rw [splitChar_cons_ne '/' '.' ('.' :: '/' :: l) (by decide) ['.'] (splitChar '/' l)
      (splitChar_cons_ne '/' '.' ('/' :: l) (by decide) [] (splitChar '/' l)
        (splitChar_cons_sep '/' l))]
  rw [h1, List.foldl_cons]
  rfl

/-- C1 witness: the segment "etc" accepted while normalizing "../etc"
is non-empty and differs from "." and "..". -/
theorem c1_normalize_invariant_witness :
    "etc".data ≠ [] ∧ "etc".data ≠ ['.'] ∧ "etc".data ≠ ['.', '.'] :=
  (c1_normalize_invariant "../etc").1 "etc".data (by decide)

/-- C6: `normalize_path` maps the three concrete example inputs to
"etc/passwd", "tmp" and "usr/lib" respectively. -/
theorem c6_normalize_examples :
    normalize_path "../../../../etc///passwd" = "etc/passwd" ∧
    normalize_path "/./../.././//././//./././tmp/././././" = "tmp" ∧
    normalize_path "/usr/bin/../lib//./" = "usr/lib" := by
  refine ⟨by decide, by decide, by decide⟩

/-- C7: `normalize_path` is a total function of its input string (it is
a Lean function, with no failure outcome) and is idempotent:
normalizing an already-normalized path returns it unchanged. -/
theorem c7_normalize_idempotent (p : String) :
    normalize_path (normalize_path p) = normalize_path p := by
  have hplain : ∀ s ∈ normalizeSegs p, plainSeg s := foldl_normStep_plain _ [] (by simp)
  have hnos : ∀ s ∈ normalizeSegs p, '/' ∉ s := by
    intro s hs
    rcases mem_foldl_normStep _ [] s hs with h | h
    · simp at h
    · exact not_mem_of_mem_splitChar '/' h
  rcases hss : normalizeSegs p with _ | ⟨s, ss⟩
  · have h0 : normalize_path p = "" := by
      unfold normalize_path
      rw [hss]
      rfl
    rw [h0]
    rfl
  · rw [hss] at hplain hnos
    have h0 : normalize_path p = ⟨joinChar '/' (s :: ss)⟩ := by
      unfold normalize_path
      rw [hss]
    rw [h0]
    show (⟨joinChar '/' (normalizeSegs ⟨joinChar '/' (s :: ss)⟩)⟩ : String) = _
    unfold normalizeSegs
    have hdata : (⟨joinChar '/' (s :: ss)⟩ : String).data = joinChar '/' (s :: ss) := rfl
    rw [hdata, splitChar_joinChar '/' (s :: ss) hnos (by simp),
      foldl_normStep_plain_append (s :: ss) hplain []]
    rfl

-- ### Lemmas for the percent-codec round trip

theorem url_encode_chars_safe :
    ∀ {l : List Char}, (∀ c ∈ l, safeChar c = true) → url_encode_chars l = some l := by
  intro l
  induction l with
  | nil => intro _; rfl
  | cons c cs ih =>
    intro h
    have hc := h c (List.mem_cons_self c cs)
    simp only [url_encode_chars, if_pos hc,
      ih (fun x hx => h x (List.mem_cons_of_mem c hx)), Option.map_some']

theorem url_decode_chars_safe :
    ∀ {l : List Char}, (∀ c ∈ l, safeChar c = true) → url_decode_chars l = some l := by
  intro l
  induction l with
  | nil => intro _; rfl
  | cons c cs ih =>
    intro h
    have hc : ¬(c = '%') := by
      intro e
      subst e
      exact absurd (h '%' (List.mem_cons_self _ _)) (by decide)
    have hstep : url_decode_chars (c :: cs) = (url_decode_chars cs).map (fun r => c :: r) := by
      rw [url_decode_chars.eq_def]
      exact if_neg hc
    rw [hstep, ih (fun x hx => h x (List.mem_cons_of_mem c hx))]
    rfl

theorem map_plus_id {l : List Char} (h : ∀ c ∈ l, safeChar c = true) :
    l.map (fun c => if c = '+' then ' ' else c) = l := by
  induction l with
  | nil => rfl
  | cons c cs ih =>
    have hc : ¬(c = '+') := by
      intro e
      subst e
      exact absurd (h '+' (List.mem_cons_self _ _)) (by decide)
    simp only [List.map_cons, if_neg hc]
    exact congrArg (c :: ·) (ih (fun x hx => h x (List.mem_cons_of_mem c hx)))

/-- C8: for every string made of ASCII letters, digits and the
characters '.', '~', '_', '-', decoding the encoding is the identity:
`url_decode` after `url_encode` returns the original string. -/
theorem c8_encode_decode (s : String) (h : ∀ c ∈ s.data, safeChar c = true) :
    (url_encode s).bind url_decode = some s := by
  obtain ⟨l⟩ := s
  have hl : ∀ c ∈ l, safeChar c = true := h
  have hrep : l.map (fun c => if c = '+' then ' ' else c) = l := map_plus_id hl
  show ((url_encode_chars l).map String.mk).bind url_decode = some ⟨l⟩
  rw [url_encode_chars_safe hl]
  show url_decode ⟨l⟩ = some ⟨l⟩
  show (url_decode_chars (l.map (fun c => if c = '+' then ' ' else c))).map String.mk = some ⟨l⟩
  rw [hrep, url_decode_chars_safe hl]
  rfl

/-- C8 witness: the round trip at the concrete safe string
"Az09.~_-". -/
theorem c8_encode_decode_witness :
    (∀ c ∈ "Az09.~_-".data, safeChar c = true) ∧
    (url_encode "Az09.~_-").bind url_decode = some "Az09.~_-" :=
  ⟨by decide, c8_encode_decode "Az09.~_-" (by decide)⟩

/-- C2: resolution classifies in a fixed order: the path itself, then
path/index.html, then path/index.htm, the first existing as a regular
file winning as a `StaticFile` (file existence beats directory
existence, and index.html beats index.htm); only when none is a file
and the path is a directory is a `Directory` (trailing-slash request)
or `Redirect` produced; otherwise `NotFound`. -/
theorem c2_resolution_order (fs : FS) (rp p : String) :
    (fs.is_file p = true → resolve fs rp p = Resource.StaticFile p) ∧
    (fs.is_file p = false → fs.is_file (p ++ "/index.html") = true →
      resolve fs rp p = Resource.StaticFile (p ++ "/index.html")) ∧
    (fs.is_file p = false → fs.is_file (p ++ "/index.html") = false →
      fs.is_file (p ++ "/index.htm") = true →
      resolve fs rp p = Resource.StaticFile (p ++ "/index.htm")) ∧
    (fs.is_file p = false → fs.is_file (p ++ "/index.html") = false →
      fs.is_file (p ++ "/index.htm") = false → fs.is_dir p = true →
      ends_with_char rp '/' = true → resolve fs rp p = Resource.Directory p) ∧
    (fs.is_file p = false → fs.is_file (p ++ "/index.html") = false →
      fs.is_file (p ++ "/index.htm") = false → fs.is_dir p = true →
      ends_with_char rp '/' = false → resolve fs rp p = Resource.Redirect (rp ++ "/")) ∧
    (fs.is_file p = false → fs.is_file (p ++ "/index.html") = false →
      fs.is_file (p ++ "/index.htm") = false → fs.is_dir p = false →
      resolve fs rp p = Resource.NotFound) := by
  refine ⟨?_, ?_, ?_, ?_, ?_, ?_⟩ <;>
    intros <;>
    simp [resolve, find_file, List.find?, *]

/-- C2 witness: one concrete filesystem per branch of the
classification order. -/
theorem c2_resolution_order_witness :
    resolve fsFileA "/a" "a" = Resource.StaticFile "a" ∧
    resolve fsIdxHtml "/sub" "sub" = Resource.StaticFile ("sub" ++ "/index.html") ∧
    resolve fsIdxHtm "/sub" "sub" = Resource.StaticFile ("sub" ++ "/index.htm") ∧
    resolve fsDirOnly "/sub/" "sub" = Resource.Directory "sub" ∧
    resolve fsDirOnly "/sub" "sub" = Resource.Redirect ("/sub" ++ "/") ∧
    resolve fsEmpty "/x" "x" = Resource.NotFound :=
  ⟨(c2_resolution_order fsFileA "/a" "a").1 (by decide),
    (c2_resolution_order fsIdxHtml "/sub" "sub").2.1 (by decide) (by decide),
    (c2_resolution_order fsIdxHtm "/sub" "sub").2.2.1 (by decide) (by decide) (by decide),
    (c2_resolution_order fsDirOnly "/sub/" "sub").2.2.2.1 (by decide) (by decide) (by decide)
      (by decide) (by decide),
    (c2_resolution_order fsDirOnly "/sub" "sub").2.2.2.2.1 (by decide) (by decide) (by decide)
      (by decide) (by decide),
    (c2_resolution_order fsEmpty "/x" "x").2.2.2.2.2 (by decide) (by decide) (by decide)
      (by decide)⟩

-- ### The request-line parser (C3)

theorem parse_request_cons (status : String) (rest : List String) :
    parse_request (status :: rest) =
      match splitChar ' ' status.data with
      | m :: p :: v :: _ => some ⟨⟨m⟩, ⟨p⟩, ⟨v⟩, parse_headers rest⟩
      | _ => none := rfl

/-- C3 counterexample: the request line "GET /x HTTP/1.1 extra" has
four space-separated tokens, yet `parse_request` accepts it (the claim
says more than three tokens must fail). -/
theorem c3_counterexample :
    (splitChar ' ' "GET /x HTTP/1.1 extra".data).length = 4 ∧
    parse_request ["GET /x HTTP/1.1 extra"] =
      some ⟨"GET", "/x", "HTTP/1.1", []⟩ := by
  refine ⟨by decide, by decide⟩

/-- C3 amended: a request line with fewer than three space-separated
tokens makes the parser fail; a line with three or more tokens is
accepted, the first three tokens becoming method, target and version
and any further tokens being ignored. -/
theorem c3_request_line_amended (status : String) (rest : List String) :
    ((splitChar ' ' status.data).length < 3 → parse_request (status :: rest) = none) ∧
    (∀ m p v extra, splitChar ' ' status.data = m :: p :: v :: extra →
      parse_request (status :: rest) = some ⟨⟨m⟩, ⟨p⟩, ⟨v⟩, parse_headers rest⟩) := by
  constructor
  · intro h
    rw [parse_request_cons]
    rcases hs : splitChar ' ' status.data with _ | ⟨a, _ | ⟨b, _ | ⟨c, t⟩⟩⟩
    · rfl
    · rfl
    · rfl
    · rw [hs] at h
      simp at h
      omega
  · intro m p v extra hs
    rw [parse_request_cons, hs]

/-- C3 witness: a two-token line fails, a three-token line is parsed
into its method, target and version. -/
theorem c3_request_line_amended_witness :
    parse_request ["GET /x"] = none ∧
    parse_request ["GET / HTTP/1.1"] = some ⟨"GET", "/", "HTTP/1.1", []⟩ :=
  ⟨(c3_request_line_amended "GET /x" []).1 (by decide),
    (c3_request_line_amended "GET / HTTP/1.1" []).2
      "GET".data "/".data "HTTP/1.1".data [] (by decide)⟩

-- ### The 404 bytes (C4) and the directory redirect (C5)

/-- C4: evaluating the pipeline at a request that resolves to
`NotFound` shows that the bytes written are exactly the status line
"HTTP/1.1 404 Not Found\r\n" with no terminating blank line, while
the claim (and the spec's wire format) requires a blank line after the
status line. -/
theorem c4_not_found_bytes :
    resolve fsEmpty "/missing.txt" "missing.txt" = Resource.NotFound ∧
    process_request fsEmpty ⟨"GET", "/missing.txt", "HTTP/1.1", []⟩ =
      some "HTTP/1.1 404 Not Found\r\n" ∧
    process_request fsEmpty ⟨"GET", "/missing.txt", "HTTP/1.1", []⟩ ≠
      some ("HTTP/1.1 404 Not Found\r\n" ++ "\r\n") := by
  refine ⟨by decide, by decide, by decide⟩

/-- C5 counterexample: under a filesystem where "sub" is a directory
containing a regular file "sub/index.html", the request "/sub" (no
trailing slash, normalized path a directory) is answered with a 200
serving the index file, not with the 301 redirect the claim asserts. -/
theorem c5_counterexample :
    fsIdxHtml.is_dir "sub" = true ∧
    ends_with_char "/sub" '/' = false ∧
    effective_path "/sub" = some "sub" ∧
    process_request fsIdxHtml ⟨"GET", "/sub", "HTTP/1.1", []⟩ =
      some ("HTTP/1.1 200 OK\r\n" ++ "Content-Type: " ++ "text/html" ++ "\r\n" ++ "\r\n"
        ++ "BODY") ∧
    process_request fsIdxHtml ⟨"GET", "/sub", "HTTP/1.1", []⟩ ≠
      some ("HTTP/1.1 301 Moved Permanently\r\n" ++ "Location: " ++ ("/sub" ++ "/") ++ "\r\n"
        ++ "\r\n") := by
  refine ⟨by decide, by decide, by decide, by decide, by decide⟩

/-- C5 amended: for every valid request whose normalized path exists as
a directory and for which none of the path itself, path/index.html and
path/index.htm exists as a regular file, a request path without a
trailing '/' is answered with status 301 and a Location header equal to
the original request path with '/' appended and an empty body, and a
request path with a trailing '/' is classified as a Directory listing. -/
theorem c5_redirect_amended (fs : FS) (req : ReqInfo) (p : String)
    (hv : req.version = "HTTP/1.1") (hm : req.method = "GET")
    (ha : starts_with_char req.path '/' = true)
    (hp : effective_path req.path = some p)
    (h1 : fs.is_file p = false) (h2 : fs.is_file (p ++ "/index.html") = false)
    (h3 : fs.is_file (p ++ "/index.htm") = false) (hd : fs.is_dir p = true) :
    (ends_with_char req.path '/' = false →
      process_request fs req =
        some ("HTTP/1.1 301 Moved Permanently\r\n" ++ "Location: " ++ (req.path ++ "/")
          ++ "\r\n" ++ "\r\n")) ∧
    (ends_with_char req.path '/' = true → resolve fs req.path p = Resource.Directory p) := by
  have hres : find_file fs p = none := by
    simp [find_file, List.find?, h1, h2, h3]
  constructor
  · intro hend
    simp [process_request, hv, hm, ha, hp, resolve, hres, hd, hend, respond]
  · intro hend
    simp [resolve, hres, hd, hend]

/-- C5 witness: the amended redirect at a concrete directory-only
filesystem and the request "/sub". -/
theorem c5_redirect_amended_witness :
    process_request fsDirOnly ⟨"GET", "/sub", "HTTP/1.1", []⟩ =
      some ("HTTP/1.1 301 Moved Permanently\r\n" ++ "Location: " ++ ("/sub" ++ "/")
        ++ "\r\n" ++ "\r\n") :=
  (c5_redirect_amended fsDirOnly ⟨"GET", "/sub", "HTTP/1.1", []⟩ "sub" rfl rfl (by decide)
    (by decide) (by decide) (by decide) (by decide) (by decide)).1 (by decide)

-- ### Lemmas for the MIME resolver (C9)

theorem afterLastSep_no_sep (sep : Char) :
    ∀ {l : List Char}, sep ∉ l → afterLastSep sep l = l := by
  intro l
  induction l with
  | nil => intro _; rfl
  | cons c cs ih =>
    intro h
    have hc : ¬(c = sep) := by
      intro e
      subst e
      exact h (List.mem_cons_self c cs)
    have hcs : sep ∉ cs := fun m => h (List.mem_cons_of_mem c m)
    rw [afterLastSep, if_neg hcs, if_neg hc, ih hcs]

theorem splitChar_two_le (sep : Char) :
    ∀ {l : List Char}, sep ∈ l → 2 ≤ (splitChar sep l).length := by
  intro l
  induction l with
  | nil => intro h; simp at h
  | cons c cs ih =>
    intro h
    by_cases hc : c = sep
    · subst hc
      rw [splitChar_cons_sep]
      have hpos : 0 < (splitChar c cs).length :=
        List.length_pos.mpr (splitChar_ne_nil c cs)
      simp only [List.length_cons]
      omega
    · have hcs : sep ∈ cs := by
        rcases List.mem_cons.mp h with h | h
        · exact absurd h.symm hc
        · exact h
      rcases hs : splitChar sep cs with _ | ⟨r, rs⟩
      · exact absurd hs (splitChar_ne_nil sep cs)
      · rw [splitChar_cons_ne sep c cs hc r rs hs]
        have h2 := ih hcs
        rw [hs] at h2
        simpa using h2

theorem getLast?_splitChar (sep : Char) :
    ∀ l : List Char, (splitChar sep l).getLast? = some (afterLastSep sep l) := by
  intro l
  induction l with
  | nil => rfl
  | cons c cs ih =>
    by_cases hc : c = sep
    · subst hc
      rw [splitChar_cons_sep]
      rcases hs : splitChar c cs with _ | ⟨r, rs⟩
      · exact absurd hs (splitChar_ne_nil c cs)
      · rw [hs] at ih
        rw [List.getLast?_cons_cons, ih]
        by_cases hm : c ∈ cs
        · rw [afterLastSep, if_pos hm]
        · rw [afterLastSep, if_neg hm, if_pos rfl, afterLastSep_no_sep c hm]
    · rcases hs : splitChar sep cs with _ | ⟨r, rs⟩
      · exact absurd hs (splitChar_ne_nil sep cs)
      · rw [splitChar_cons_ne sep c cs hc r rs hs]
        by_cases hm : sep ∈ cs
        · have h2 := splitChar_two_le sep hm
          rw [hs] at h2
          rcases rs with _ | ⟨b, t⟩
          · simp at h2
          · rw [hs, List.getLast?_cons_cons] at ih
            rw [List.getLast?_cons_cons, ih, afterLastSep, if_pos hm]
        · have hsingle := splitChar_no_sep sep hm
          rw [hs] at hsingle
          injection hsingle with hr hrs
          subst hr
          subst hrs
          rw [afterLastSep, if_neg hm, if_neg hc, afterLastSep_no_sep sep hm]
          rfl

theorem file_name_plain (s : String) (h1 : '/' ∉ s.data) (h2 : s.data ≠ [])
    (h3 : s.data ≠ ['.']) (h4 : s.data ≠ ['.', '.']) : file_name s = some s := by
  obtain ⟨l⟩ := s
  have h1l : '/' ∉ l := h1
  have h2l : l ≠ [] := h2
  have h3l : l ≠ ['.'] := h3
  have h4l : l ≠ ['.', '.'] := h4
  have hfil : ((splitChar '/' l).filter fun s => decide ¬(s = [] ∨ s = ['.'])) = [l] := by
    rw [splitChar_no_sep '/' h1l]
    simp [List.filter_cons, h2l, h3l]
  show file_name ⟨l⟩ = some ⟨l⟩
  unfold file_name
  rw [show (⟨l⟩ : String).data = l from rfl, hfil]
  simp [h4l]

/-- C9 counterexample: the resolver is not total on file paths: on the
inputs ".." and "" (no final normal path component) the code panics,
refuting "never fails"; the two concrete table examples of the claim do
hold. -/
theorem c9_counterexample :
    mime_type ".." = none ∧ mime_type "" = none ∧
    mime_type "a.b.json" = some "application/json" ∧
    mime_type "noext" = some "application/octet-stream" := by
  refine ⟨by decide, by decide, by decide, by decide⟩

/-- C9 amended: for every filename that is a single normal path
component (non-empty, not "." or "..", containing no '/'), the MIME
resolver never fails and returns the fixed-table lookup of the
substring after the last '.' of the filename (the whole filename when
it has no '.'); on paths without a final normal component, such as ""
or "..", the code panics instead of returning a value. -/
theorem c9_mime_amended (s : String) (h1 : '/' ∉ s.data) (h2 : s.data ≠ [])
    (h3 : s.data ≠ ['.']) (h4 : s.data ≠ ['.', '.']) :
    mime_type s = some (mime_from_ext ⟨afterLastSep '.' s.data⟩) := by
  have hf : file_name s = some s := file_name_plain s h1 h2 h3 h4
  unfold mime_type
  rw [hf, Option.map_some']
  show some
      (match (splitChar '.' s.data).getLast? with
        | none => DEFAULT_MIME_TYPE
        | some ext => mime_from_ext ⟨ext⟩) = _
  rw [getLast?_splitChar '.' s.data]

/-- C9 witness: the amended statement evaluated at "a.b.json", whose
substring after the last '.' is "json", giving "application/json". -/
theorem c9_mime_amended_witness :
    mime_type "a.b.json" = some (mime_from_ext ⟨afterLastSep '.' "a.b.json".data⟩) ∧
    mime_from_ext ⟨afterLastSep '.' "a.b.json".data⟩ = "application/json" :=
  ⟨c9_mime_amended "a.b.json" (by decide) (by decide) (by decide) (by decide), by decide⟩

-- ### Lemmas for the HTML escaper (C10)

theorem replaceChar_append (c : Char) (rep l1 l2 : List Char) :
    replaceChar c rep (l1 ++ l2) = replaceChar c rep l1 ++ replaceChar c rep l2 := by
  simp [replaceChar]

theorem encodeList_append (l1 l2 : List Char) :
    encodeList (l1 ++ l2) = encodeList l1 ++ encodeList l2 := by
  simp [encodeList, replaceChar_append]

theorem encodeList_single (x : Char) : encodeList [x] = encChar x := by
  by_cases h1 : x = '&'
  · subst h1; decide
  · by_cases h2 : x = '<'
    · subst h2; decide
    · by_cases h3 : x = '>'
      · subst h3; decide
      · by_cases h4 : x = '"'
        · subst h4; decide
        · by_cases h5 : x = apos
          · subst h5; decide
          · simp [encodeList, replaceChar, encChar, h1, h2, h3, h4, h5]

theorem encodeList_cons (x : Char) (l : List Char) :
    encodeList (x :: l) = encChar x ++ encodeList l := by
  have h : x :: l = [x] ++ l := rfl
  rw [h, encodeList_append, encodeList_single]

theorem encChar_no_bad (x : Char) :
    ∀ c ∈ encChar x, c ≠ '<' ∧ c ≠ '>' ∧ c ≠ '"' ∧ c ≠ apos := by
  by_cases h1 : x = '&'
  · subst h1; decide
  · by_cases h2 : x = '<'
    · subst h2; decide
    · by_cases h3 : x = '>'
      · subst h3; decide
      · by_cases h4 : x = '"'
        · subst h4; decide
        · by_cases h5 : x = apos
          · subst h5; decide
          · intro c hc
            simp only [encChar, if_neg h1, if_neg h2, if_neg h3, if_neg h4, if_neg h5,
              List.mem_singleton] at hc
            subst hc
            exact ⟨h2, h3, h4, h5⟩

theorem encChar_amp_tail (x : Char) : '&' ∉ (encChar x).drop 1 := by
  by_cases h1 : x = '&'
  · subst h1; decide
  · by_cases h2 : x = '<'
    · subst h2; decide
    · by_cases h3 : x = '>'
      · subst h3; decide
      · by_cases h4 : x = '"'
        · subst h4; decide
        · by_cases h5 : x = apos
          · subst h5; decide
          · simp [encChar, h1, h2, h3, h4, h5]

theorem eq_append_amp (e l1 r : List Char) (he : e = l1 ++ '&' :: r)
    (ht : '&' ∉ e.drop 1) : l1 = [] := by
  cases l1 with
  | nil => rfl
  | cons a l1' =>
    subst he
    simp only [List.cons_append, List.drop_succ_cons, List.drop_zero] at ht
    exact absurd (List.mem_append_right l1' (List.mem_cons_self '&' r)) ht

theorem encChar_amp_split (x : Char) (l1 r : List Char)
    (h : encChar x = l1 ++ '&' :: r) : encChar x ∈ entities ∧ l1 = [] := by
  have h0 : l1 = [] := eq_append_amp (encChar x) l1 r h (encChar_amp_tail x)
  refine ⟨?_, h0⟩
  subst h0
  by_cases h1 : x = '&'
  · subst h1; decide
  · by_cases h2 : x = '<'
    · subst h2; decide
    · by_cases h3 : x = '>'
      · subst h3; decide
      · by_cases h4 : x = '"'
        · subst h4; decide
        · by_cases h5 : x = apos
          · subst h5; decide
          · simp only [encChar, if_neg h1, if_neg h2, if_neg h3, if_neg h4, if_neg h5] at h
            rw [List.nil_append] at h
            injection h with hx hr
            exact absurd hx h1

theorem encodeList_amp :
    ∀ (l l1 l2 : List Char), encodeList l = l1 ++ '&' :: l2 →
      startsWithEntity ('&' :: l2) := by
  intro l
  induction l with
  | nil =>
    intro l1 l2 h
    have h0 : ([] : List Char) = l1 ++ '&' :: l2 := h
    exact absurd h0.symm (by simp)
  | cons x l ih =>
    intro l1 l2 h
    rw [encodeList_cons] at h
    rcases List.append_eq_append_iff.mp h with ⟨a, ha1, ha2⟩ | ⟨c', hc1, hc2⟩
    · exact ih a l2 ha2
    · cases c' with
      | nil =>
        rw [List.nil_append] at hc2
        exact ih [] l2 (by rw [List.nil_append, ← hc2])
      | cons y c'' =>
        rw [List.cons_append] at hc2
        injection hc2 with hy hl2
        subst hy
        obtain ⟨hent, hl1⟩ := encChar_amp_split x l1 c'' hc1
        subst hl1
        rw [List.nil_append] at hc1
        refine ⟨encChar x, encodeList l, hent, ?_⟩
        rw [hc1, List.cons_append, hl2]

theorem encodeList_no_bad :
    ∀ (l : List Char), ∀ c ∈ encodeList l, c ≠ '<' ∧ c ≠ '>' ∧ c ≠ '"' ∧ c ≠ apos := by
  intro l
  induction l with
  | nil =>
    intro c hc
    exact absurd hc (List.not_mem_nil c)
  | cons x l ih =>
    intro c hc
    rw [encodeList_cons] at hc
    rcases List.mem_append.mp hc with hc | hc
    · exact encChar_no_bad x c hc
    · exact ih c hc

/-- C10: for every input string, the output of `html_encode` contains
no '<', '>', '"' or apostrophe, and every '&' of the output begins one
of the five emitted entities (&amp; &lt; &gt; &quot; &apos;): because
'&' is replaced first, escaping is never applied to the entities the
escaper emits. -/
theorem c10_html_escape (s : String) :
    (∀ c ∈ (html_encode s).data, c ≠ '<' ∧ c ≠ '>' ∧ c ≠ '"' ∧ c ≠ apos) ∧
    (∀ l1 l2, (html_encode s).data = l1 ++ '&' :: l2 → startsWithEntity ('&' :: l2)) := by
  obtain ⟨l⟩ := s
  have hdata : (html_encode ⟨l⟩).data = encodeList l := rfl
  rw [hdata]
  exact ⟨encodeList_no_bad l, fun l1 l2 h => encodeList_amp l l1 l2 h⟩

/-- C10 witness: the character kept by escaping "a" is none of the four
dangerous characters, and the '&' produced by escaping "&b" begins the
entity &amp;. -/
theorem c10_html_escape_witness :
    ('a' ≠ '<' ∧ 'a' ≠ '>' ∧ 'a' ≠ '"' ∧ 'a' ≠ apos) ∧
    startsWithEntity ('&' :: "amp;b".data) :=
  ⟨(c10_html_escape "a").1 'a' (by decide),
    (c10_html_escape "&b").2 [] "amp;b".data (by decide)⟩

end WebServer
